import Mathlib

/-
Verification of the accumulator repository (src/src/accumulator.rs and
src/src/proof/poke2.rs) against its natural-language specification.

The abstract group capability of the spec (section 4.1) is embedded as a
commutative group: the concrete groups of the construction (RSA groups,
class groups, the dummy test group) are all commutative, and the algebraic
reasoning of the spec (Shamir trick, PoKE2) uses commutativity freely.
Unsigned exponents (BigUint) are embedded as Nat with Monoid.npow, signed
exponents (BigInt) as Int with zpow; the group operation op is mul, inv is
inv, exp is pow and exp_signed is zpow.
-/

namespace Accumulator

/-- The error type of accumulator operations, from accumulator.rs lines 8-12. -/
inductive AccError
  | BadWitness
  | InputsNotCoPrime
deriving DecidableEq

variable {α : Type} [CommGroup α] [DecidableEq α]

/-- Modelled from the spec: the extended-Euclidean Bezout utility of util.rs
(that file is not under src); it returns a triple (a, b, gcd) of Bezout
coefficients with a * x + b * y = gcd x y, computed by the extended Euclidean
algorithm. -/
def bezout (x y : ℕ) : ℤ × ℤ × ℕ :=
  (Nat.gcdA x y, Nat.gcdB x y, Nat.gcd x y)

/-- Modelled from the spec: the Euclidean-remainder utility mod_euc_big of
util.rs (not under src): the remainder r of e divided by l in the Euclidean
convention 0 ≤ r < l. -/
def mod_euc_big (e : ℤ) (l : ℕ) : ℕ :=
  (e % (l : ℤ)).toNat

/-- Modelled from the spec: the proof object of the PoE collaborator
(proof/poe.rs, not under src), an opaque serializable value type; it records
the certified triple. -/
structure PoE (β : Type) where
  base : β
  exp : ℕ
  result : β
deriving DecidableEq

/-- Modelled from the spec: prove_poe of the PoE collaborator (proof/poe.rs,
not under src); produced for a triple with result = base ^ exponent. -/
def prove_poe (base : α) (x : ℕ) (result : α) : PoE α :=
  ⟨base, x, result⟩

/-- Modelled from the spec: verify_poe of the PoE collaborator (proof/poe.rs,
not under src); deterministic, true iff the triple and the proof are
consistent under the protocol of the collaborator. -/
def verify_poe (base : α) (x : ℕ) (result : α) (pf : PoE α) : Bool :=
  decide (pf.base = base ∧ pf.exp = x ∧ pf.result = result ∧ base ^ x = result)

/-- The PoKE2 proof object (z, Q, r), from proof/poke2.rs lines 9-14. -/
structure PoKE2 (β : Type) where
  z : β
  Q : β
  r : ℕ
deriving DecidableEq

/-- hash_prime from proof/poke2.rs lines 56-63: the implementation is a
placeholder that ignores its inputs and returns the constant 13. -/
def hash_prime (_u _w _z : α) : ℕ :=
  13

/-- prove_poke2 from proof/poke2.rs lines 23-39. The hash-to-integer
primitive hash_inputs of poke2.rs calls the external blake2 hash (hash.rs is
not under src), so it is passed here as a black-box function argument, per
the spec; g is the base element of the group capability. -/
def prove_poke2 (g : α) (hash_inputs : α → α → α → ℕ → ℕ)
    (base : α) (exp : ℤ) (result : α) : PoKE2 α :=
  let z := g ^ exp
  let l := hash_prime base result z
  let alpha := hash_inputs base result z l
  let q := Int.fdiv exp (l : ℤ)
  let r := mod_euc_big exp l
  ⟨z, (base * g ^ alpha) ^ q, r⟩

/-- verify_poke2 from proof/poke2.rs lines 42-54: recompute the challenges
and accept iff Q ^ l * (base * g ^ alpha) ^ r = result * z ^ alpha. -/
def verify_poke2 (g : α) (hash_inputs : α → α → α → ℕ → ℕ)
    (base result : α) (proof : PoKE2 α) : Bool :=
  let l := hash_prime base result proof.z
  let alpha := hash_inputs base result proof.z l
  decide (proof.Q ^ l * (base * g ^ alpha) ^ proof.r = result * proof.z ^ alpha)

/-- product from accumulator.rs lines 121-123: left fold of multiplication
starting from one. -/
def product (elems : List ℕ) : ℕ :=
  elems.foldl (fun a b => a * b) 1

/-- shamir_trick from accumulator.rs lines 126-146. -/
def shamir_trick (xth_root yth_root : α) (x y : ℕ) : Option α :=
  if xth_root ^ x ≠ yth_root ^ y then
    none
  else
    let (a, b, gcd) := bezout x y
    if gcd ≠ 1 then
      none
    else
      some (xth_root ^ b * yth_root ^ a)

/-- setup from accumulator.rs lines 15-17: the base element of the group. -/
def setup (g : α) : α :=
  g

/-- add from accumulator.rs lines 20-25. -/
def add (acc : α) (elems : List ℕ) : α × PoE α :=
  let x := product elems
  let new_acc := acc ^ x
  (new_acc, prove_poe acc x new_acc)

/-- The loop of delete (accumulator.rs lines 40-56), processing the witness
pairs after the first one; carries the running aggregate exponent and the
running accumulator. -/
def deleteLoop (acc : α) : List (ℕ × α) → ℕ → α → Except AccError (ℕ × α)
  | [], elem_aggregate, acc_next => .ok (elem_aggregate, acc_next)
  | (elem, witness) :: rest, elem_aggregate, acc_next =>
    if witness ^ elem ≠ acc then
      .error .BadWitness
    else
      match shamir_trick acc_next witness elem_aggregate elem with
      | some acc_next_value => deleteLoop acc rest (elem_aggregate * elem) acc_next_value
      | none => .error .InputsNotCoPrime

/-- delete from accumulator.rs lines 28-60: empty list is the identity
operation; otherwise the aggregate exponent and running accumulator start
from the first pair and the loop processes the remaining pairs. -/
def delete (acc : α) (elem_witnesses : List (ℕ × α)) :
    Except AccError (α × PoE α) :=
  match elem_witnesses with
  | [] => .ok (acc, prove_poe acc 0 acc)
  | (e0, w0) :: rest =>
    match deleteLoop acc rest e0 w0 with
    | .ok (elem_aggregate, acc_next) => .ok (acc_next, prove_poe acc_next elem_aggregate acc)
    | .error err => .error err

/-- prove_membership from accumulator.rs lines 63-68: identical to delete. -/
def prove_membership (acc : α) (elem_witnesses : List (ℕ × α)) :
    Except AccError (α × PoE α) :=
  delete acc elem_witnesses

/-- verify_membership from accumulator.rs lines 71-79. -/
def verify_membership (witness : α) (elems : List ℕ) (result : α)
    (proof : PoE α) : Bool :=
  verify_poe witness (product elems) result proof

/-- prove_nonmembership from accumulator.rs lines 83-104. -/
def prove_nonmembership (g : α) (hash_inputs : α → α → α → ℕ → ℕ) (acc : α)
    (acc_set : List ℕ) (elems : List ℕ) :
    Except AccError (α × α × α × PoKE2 α × PoE α) :=
  let x := product elems
  let s := product acc_set
  let (a, b, gcd) := bezout x s
  if gcd ≠ 1 then
    .error .InputsNotCoPrime
  else
    let d := g ^ a
    let v := acc ^ b
    let gv_inverse := g * v⁻¹
    .ok (d, v, gv_inverse, prove_poke2 g hash_inputs acc b v,
      prove_poe d x gv_inverse)

/-- verify_nonmembership from accumulator.rs lines 107-119. -/
def verify_nonmembership (g : α) (hash_inputs : α → α → α → ℕ → ℕ) (acc : α)
    (elems : List ℕ) (d v gv_inverse : α) (poke2_proof : PoKE2 α)
    (poe_proof : PoE α) : Bool :=
  let x := product elems
  verify_poke2 g hash_inputs acc v poke2_proof &&
    verify_poe d x gv_inverse poe_proof

/-- C9: delete on the empty witness list is the identity operation: it
returns the accumulator unchanged with the proof prove_poe acc 0 acc. -/
theorem delete_nil_identity (acc : α) :
    delete acc [] = Except.ok (acc, prove_poe acc 0 acc) :=
  rfl

/-- C10: delete on a single-pair witness list returns
Ok (witness, prove_poe witness elem acc) unconditionally: the BadWitness
exponentiation check only applies to pairs after the first, so a one-element
delete never returns BadWitness or InputsNotCoPrime. -/
theorem delete_single_pair (acc : α) (elem : ℕ) (witness : α) :
    delete acc [(elem, witness)] = Except.ok (witness, prove_poe witness elem acc) :=
  rfl

/-- C2: the challenge prime of the PoKE2 protocol is NOT a function varying
with the public triple: hash_prime of poke2.rs is the placeholder constant
13, so every two triples (also distinct ones) receive the same challenge. -/
theorem hash_prime_constant (u w z u2 w2 z2 : α) :
    hash_prime u w z = 13 ∧ hash_prime u w z = hash_prime u2 w2 z2 :=
  ⟨rfl, rfl⟩

theorem product_eq_prod (l : List ℕ) : product l = l.prod := by
  simp [product, List.prod_eq_foldl]

theorem mem_dvd_product {e : ℕ} {l : List ℕ} (h : e ∈ l) : e ∣ product l := by
  rw [product_eq_prod]
  exact List.dvd_prod h

/-- C6: add always succeeds, returning the accumulator raised to the product
of the elements together with the PoE proof of that exponentiation; and
concretely, adding [41, 67, 89] and then [5, 7, 11] to the base element
yields g ^ 94125955, the second PoE verifying against (acc0, 385, acc1). -/
theorem add_correct (acc : α) (elems : List ℕ) :
    add acc elems
      = (acc ^ product elems, prove_poe acc (product elems) (acc ^ product elems)) ∧
    ∀ g : α,
      (add (add g [41, 67, 89]).1 [5, 7, 11]).1 = g ^ (94125955 : ℕ) ∧
      verify_poe (add g [41, 67, 89]).1 385 (add (add g [41, 67, 89]).1 [5, 7, 11]).1
        (add (add g [41, 67, 89]).1 [5, 7, 11]).2 = true := by
  refine ⟨rfl, fun g => ⟨?_, ?_⟩⟩
  · have h1 : (add (add g [41, 67, 89]).1 [5, 7, 11]).1
        = (g ^ (244483 : ℕ)) ^ (385 : ℕ) := rfl
    rw [h1, ← pow_mul]
  · show verify_poe (g ^ (244483 : ℕ)) 385 ((g ^ (244483 : ℕ)) ^ (385 : ℕ))
      (prove_poe (g ^ (244483 : ℕ)) 385 ((g ^ (244483 : ℕ)) ^ (385 : ℕ))) = true
    simp [verify_poe, prove_poe]

/-- C8: shamir_trick returns none when the two alleged roots disagree, and
returns none when the two exponents are not co-prime; concretely it returns
none on the non-co-prime pair x = 7, y = 14 from the test vector. -/
theorem shamir_trick_none (xr yr : α) (x y : ℕ) :
    (xr ^ x ≠ yr ^ y → shamir_trick xr yr x y = none) ∧
    (Nat.gcd x y ≠ 1 → shamir_trick xr yr x y = none) ∧
    ∀ g : α, shamir_trick (g ^ (14 * 19 : ℕ)) (g ^ (7 * 19 : ℕ)) 7 14 = none := by
  refine ⟨fun h => by simp [shamir_trick, h], fun h => ?_, fun g => ?_⟩
  · by_cases hroot : xr ^ x = yr ^ y
    · simp [shamir_trick, bezout, hroot, h]
    · simp [shamir_trick, hroot]
  · have hroot : (g ^ (14 * 19 : ℕ)) ^ (7 : ℕ) = (g ^ (7 * 19 : ℕ)) ^ (14 : ℕ) := by
      rw [← pow_mul, ← pow_mul]
    have hg : Nat.gcd 7 14 ≠ 1 := by decide
    simp [shamir_trick, bezout, hroot, hg]

theorem deleteLoop_bad_witness (acc : α) (rest : List (ℕ × α)) :
    ∀ (ea : ℕ) (an : α), (∃ p ∈ rest, p.2 ^ p.1 ≠ acc) →
      ∀ pr, deleteLoop acc rest ea an ≠ Except.ok pr := by
  induction rest with
  | nil => intro ea an h; simp at h
  | cons hd tl ih =>
    intro ea an h pr
    obtain ⟨e, w⟩ := hd
    by_cases hw : w ^ e = acc
    · rcases h with ⟨p, hp, hbad⟩
      rcases List.mem_cons.mp hp with heq | htl
      · subst heq; exact absurd hw hbad
      · simp only [deleteLoop, hw, ne_eq, not_true_eq_false, if_false]
        cases hst : shamir_trick an w ea e with
        | none => simp
        | some v => simpa [hst] using ih (ea * e) v ⟨p, htl, hbad⟩ pr
    · simp [deleteLoop, hw]

/-- C1 (amended): if some pair AFTER the first one carries a witness that
fails the exponentiation check witness ^ element = acc, then delete does not
return Ok (it fails with BadWitness, or with InputsNotCoPrime if a
non-co-prime pair is hit first in the left-to-right scan); the check is not
applied to the first pair. -/
theorem delete_bad_tail_witness_not_ok (acc : α) (ews : List (ℕ × α))
    (h : ∃ p ∈ ews.tail, p.2 ^ p.1 ≠ acc) :
    ∀ res, delete acc ews ≠ Except.ok res := by
  intro res
  match ews with
  | [] => simp at h
  | (e0, w0) :: rest =>
    simp only [List.tail_cons] at h
    simp only [delete]
    cases hl : deleteLoop acc rest e0 w0 with
    | error err => simp
    | ok pr => exact absurd hl (deleteLoop_bad_witness acc rest e0 w0 h pr)

/-- C1 witness: a concrete two-pair list whose second witness is bad, on
which delete indeed does not return Ok. -/
theorem delete_bad_tail_witness_not_ok_witness :
    (∃ p ∈ [((1 : ℕ), Multiplicative.ofAdd (1 : ZMod 4)),
        ((2 : ℕ), Multiplicative.ofAdd (1 : ZMod 4))].tail,
      p.2 ^ p.1 ≠ Multiplicative.ofAdd (1 : ZMod 4)) ∧
    ∀ res, delete (Multiplicative.ofAdd (1 : ZMod 4))
      [((1 : ℕ), Multiplicative.ofAdd (1 : ZMod 4)),
        ((2 : ℕ), Multiplicative.ofAdd (1 : ZMod 4))] ≠ Except.ok res :=
  ⟨by decide, delete_bad_tail_witness_not_ok _ _ (by decide)⟩

/-- C1 counterexample: the claim as stated is false: a single-pair list whose
witness fails the exponentiation check still yields Ok, because delete never
checks the first witness. -/
theorem delete_bad_first_witness_ok_counterexample :
    (Multiplicative.ofAdd (1 : ZMod 4)) ^ (2 : ℕ) ≠ Multiplicative.ofAdd (1 : ZMod 4) ∧
    delete (Multiplicative.ofAdd (1 : ZMod 4))
        [((2 : ℕ), Multiplicative.ofAdd (1 : ZMod 4))]
      = Except.ok (Multiplicative.ofAdd (1 : ZMod 4),
          prove_poe (Multiplicative.ofAdd (1 : ZMod 4)) 2 (Multiplicative.ofAdd (1 : ZMod 4))) :=
  ⟨by decide, rfl⟩

theorem combined_root_pow (v xr yr : α) (x y : ℕ) (a b : ℤ)
    (hx : xr ^ (x : ℤ) = v) (hy : yr ^ (y : ℤ) = v)
    (key : (x : ℤ) * a + (y : ℤ) * b = 1) :
    (xr ^ b * yr ^ a) ^ (x * y : ℕ) = v := by
  rw [← zpow_natCast (xr ^ b * yr ^ a) (x * y)]
  push_cast
  rw [mul_zpow, ← zpow_mul xr, ← zpow_mul yr]
  have e1 : xr ^ (b * ((x : ℤ) * y)) = v ^ (b * y) := by
    rw [show b * ((x : ℤ) * y) = (x : ℤ) * (b * y) by ring, zpow_mul, hx]
  have e2 : yr ^ (a * ((x : ℤ) * y)) = v ^ (a * x) := by
    rw [show a * ((x : ℤ) * y) = (y : ℤ) * (a * x) by ring, zpow_mul, hy]
  rw [e1, e2, ← zpow_add,
    show b * y + a * x = (x : ℤ) * a + (y : ℤ) * b by ring, key, zpow_one]

/-- C4: for co-prime exponents and agreeing roots, shamir_trick returns the
combination xth_root ^ b * yth_root ^ a of the two roots by the Bezout
coefficients a * x + b * y = 1, and that combination is an (x * y)-th root of
the common value; concretely, with x = 13, y = 17, z = 19 in any group,
shamir_trick (g ^ (17 * 19)) (g ^ (13 * 19)) 13 17 = some (g ^ 19). -/
theorem shamir_trick_correct (xr yr : α) (x y : ℕ)
    (hg : Nat.gcd x y = 1) (hroot : xr ^ x = yr ^ y) :
    shamir_trick xr yr x y = some (xr ^ Nat.gcdB x y * yr ^ Nat.gcdA x y) ∧
    (xr ^ Nat.gcdB x y * yr ^ Nat.gcdA x y) ^ (x * y : ℕ) = xr ^ x ∧
    ∀ g : α, shamir_trick (g ^ (17 * 19 : ℕ)) (g ^ (13 * 19 : ℕ)) 13 17
      = some (g ^ (19 : ℕ)) := by
  have key : (x : ℤ) * Nat.gcdA x y + (y : ℤ) * Nat.gcdB x y = 1 := by
    have h := (Nat.gcd_eq_gcd_ab x y).symm
    rw [hg] at h
    exact_mod_cast h
  refine ⟨by simp [shamir_trick, bezout, hroot, hg], ?_, fun g => ?_⟩
  · exact combined_root_pow (xr ^ x) xr yr x y (Nat.gcdA x y) (Nat.gcdB x y)
      (zpow_natCast xr x) (by rw [zpow_natCast, hroot]) key
  · have hroot19 : (g ^ (17 * 19 : ℕ)) ^ (13 : ℕ) = (g ^ (13 * 19 : ℕ)) ^ (17 : ℕ) := by
      rw [← pow_mul, ← pow_mul]
    have hg19 : Nat.gcd 13 17 = 1 := by decide
    have key19 : (13 : ℤ) * Nat.gcdA 13 17 + (17 : ℤ) * Nat.gcdB 13 17 = 1 := by
      have h := (Nat.gcd_eq_gcd_ab 13 17).symm
      rw [hg19] at h
      exact_mod_cast h
    have hval : (g ^ (17 * 19 : ℕ)) ^ Nat.gcdB 13 17 * (g ^ (13 * 19 : ℕ)) ^ Nat.gcdA 13 17
        = g ^ (19 : ℕ) := by
      rw [← zpow_natCast g (17 * 19), ← zpow_natCast g (13 * 19), ← zpow_mul, ← zpow_mul,
        ← zpow_add, ← zpow_natCast g 19]
      congr 1
      push_cast
      nlinarith [key19]
    rw [← hval]
    simp [shamir_trick, bezout, hroot19, hg19]

/-- C4 witness: a concrete instance in the cyclic group Z mod 5 with the
co-prime pair x = 2, y = 3 and agreeing roots. -/
theorem shamir_trick_correct_witness :
    Nat.gcd 2 3 = 1 ∧
    (Multiplicative.ofAdd (3 : ZMod 5)) ^ (2 : ℕ)
      = (Multiplicative.ofAdd (2 : ZMod 5)) ^ (3 : ℕ) ∧
    shamir_trick (Multiplicative.ofAdd (3 : ZMod 5)) (Multiplicative.ofAdd (2 : ZMod 5)) 2 3
      = some ((Multiplicative.ofAdd (3 : ZMod 5)) ^ Nat.gcdB 2 3
          * (Multiplicative.ofAdd (2 : ZMod 5)) ^ Nat.gcdA 2 3) :=
  ⟨by decide, by decide,
    (shamir_trick_correct (Multiplicative.ofAdd (3 : ZMod 5))
      (Multiplicative.ofAdd (2 : ZMod 5)) 2 3 (by decide) (by decide)).1⟩

/-- C8 witness: concrete instances discharging both failure hypotheses of
shamir_trick_none: disagreeing roots, and a non-co-prime exponent pair. -/
theorem shamir_trick_none_witness :
    ((Multiplicative.ofAdd (1 : ZMod 3)) ^ (1 : ℕ)
        ≠ (Multiplicative.ofAdd (1 : ZMod 3)) ^ (2 : ℕ) ∧
      shamir_trick (Multiplicative.ofAdd (1 : ZMod 3))
        (Multiplicative.ofAdd (1 : ZMod 3)) 1 2 = none) ∧
    (Nat.gcd 2 4 ≠ 1 ∧
      shamir_trick (Multiplicative.ofAdd (1 : ZMod 3))
        (Multiplicative.ofAdd (1 : ZMod 3)) 2 4 = none) :=
  ⟨⟨by decide, (shamir_trick_none (Multiplicative.ofAdd (1 : ZMod 3))
      (Multiplicative.ofAdd (1 : ZMod 3)) 1 2).1 (by decide)⟩,
    ⟨by decide, (shamir_trick_none (Multiplicative.ofAdd (1 : ZMod 3))
      (Multiplicative.ofAdd (1 : ZMod 3)) 2 4).2.1 (by decide)⟩⟩

theorem poke2_division_identity (u : α) (e : ℤ) :
    (u ^ Int.fdiv e (13 : ℤ)) ^ (13 : ℕ) * u ^ mod_euc_big e 13 = u ^ e := by
  have hfd : Int.fdiv e (13 : ℤ) = e / 13 := Int.fdiv_eq_ediv e (by norm_num)
  have hr : ((mod_euc_big e 13 : ℕ) : ℤ) = e % 13 := by
    have : (0 : ℤ) ≤ e % 13 := Int.emod_nonneg e (by norm_num)
    simp [mod_euc_big, Int.toNat_of_nonneg this]
  rw [← zpow_natCast (u ^ Int.fdiv e (13 : ℤ)) 13, ← zpow_mul u,
    ← zpow_natCast u (mod_euc_big e 13), hr, ← zpow_add]
  congr 1
  rw [hfd]
  omega

/-- C3: round trip of PoKE2: for every base, signed exponent and result with
base ^ exponent = result (and any black-box hash-to-integer challenge
function), the honestly generated proof satisfies the acceptance equation
Q ^ l * (base * g ^ alpha) ^ r = result * z ^ alpha of the verifier. -/
theorem verify_poke2_round_trip (g : α) (hash_inputs : α → α → α → ℕ → ℕ)
    (base : α) (exp : ℤ) (result : α) (h : base ^ exp = result) :
    verify_poke2 g hash_inputs base result
      (prove_poke2 g hash_inputs base exp result) = true := by
  simp only [verify_poke2, prove_poke2, hash_prime, Nat.cast_ofNat, decide_eq_true_eq]
  generalize hash_inputs base result (g ^ exp) 13 = alpha
  rw [poke2_division_identity (base * g ^ alpha) exp, mul_zpow, ← h]
  congr 1
  rw [← zpow_natCast g alpha, ← zpow_mul g, ← zpow_natCast (g ^ exp) alpha, ← zpow_mul g,
    mul_comm]

/-- C3 witness: a concrete valid triple in the cyclic group Z mod 5, whose
honestly generated PoKE2 proof verifies. -/
theorem verify_poke2_round_trip_witness :
    (Multiplicative.ofAdd (1 : ZMod 5)) ^ (3 : ℤ) = Multiplicative.ofAdd (3 : ZMod 5) ∧
    verify_poke2 (Multiplicative.ofAdd (1 : ZMod 5)) (fun _ _ _ _ => 2)
      (Multiplicative.ofAdd (1 : ZMod 5)) (Multiplicative.ofAdd (3 : ZMod 5))
      (prove_poke2 (Multiplicative.ofAdd (1 : ZMod 5)) (fun _ _ _ _ => 2)
        (Multiplicative.ofAdd (1 : ZMod 5)) (3 : ℤ) (Multiplicative.ofAdd (3 : ZMod 5)))
      = true :=
  ⟨by decide, verify_poke2_round_trip (Multiplicative.ofAdd (1 : ZMod 5)) (fun _ _ _ _ => 2)
    (Multiplicative.ofAdd (1 : ZMod 5)) (3 : ℤ) (Multiplicative.ofAdd (3 : ZMod 5)) (by decide)⟩

/-- C5 (amended): prove_nonmembership fails with InputsNotCoPrime exactly
when the products of the target elements and of the committed set are not
co-prime, and returns Ok otherwise; in particular it fails whenever some
target element GREATER THAN ONE is a member of the committed set (the
element 1 is a member of every exponent product, so it never breaks
co-primality). -/
theorem prove_nonmembership_coprime_iff (g : α) (hash_inputs : α → α → α → ℕ → ℕ)
    (acc : α) (acc_set elems : List ℕ) :
    (prove_nonmembership g hash_inputs acc acc_set elems
        = Except.error AccError.InputsNotCoPrime
      ↔ Nat.gcd (product elems) (product acc_set) ≠ 1) ∧
    (Nat.gcd (product elems) (product acc_set) = 1 →
      (prove_nonmembership g hash_inputs acc acc_set elems).isOk = true) ∧
    (∀ e ∈ elems, e ∈ acc_set → 1 < e →
      prove_nonmembership g hash_inputs acc acc_set elems
        = Except.error AccError.InputsNotCoPrime) := by
  by_cases hg : Nat.gcd (product elems) (product acc_set) = 1
  · refine ⟨by simp [prove_nonmembership, bezout, hg, Except.isOk], ?_, ?_⟩
    · intro _
      simp [prove_nonmembership, bezout, hg, Except.isOk, Except.toBool]
    · intro e he hm hlt
      exfalso
      have hdvd : e ∣ Nat.gcd (product elems) (product acc_set) :=
        Nat.dvd_gcd (mem_dvd_product he) (mem_dvd_product hm)
      rw [hg] at hdvd
      exact absurd (Nat.dvd_one.mp hdvd) (by omega)
  · refine ⟨by simp [prove_nonmembership, bezout, hg], fun h => absurd h hg, ?_⟩
    intro e he hm hlt
    simp [prove_nonmembership, bezout, hg]

/-- C5 witness: a concrete co-prime instance (target [3] against committed
set [2]) on which prove_nonmembership succeeds. -/
theorem prove_nonmembership_coprime_iff_witness :
    Nat.gcd (product [3]) (product [2]) = 1 ∧
    (prove_nonmembership (Multiplicative.ofAdd (1 : ZMod 3)) (fun _ _ _ _ => 0)
      (Multiplicative.ofAdd (1 : ZMod 3)) [2] [3]).isOk = true :=
  ⟨by decide, (prove_nonmembership_coprime_iff (Multiplicative.ofAdd (1 : ZMod 3))
    (fun _ _ _ _ => 0) (Multiplicative.ofAdd (1 : ZMod 3)) [2] [3]).2.1 (by decide)⟩

/-- C5 counterexample: the element 1 is both a target element and a member of
the committed set, yet prove_nonmembership succeeds, because the products are
still co-prime; so the claim that membership of a target element always
forces an InputsNotCoPrime failure is false as stated. -/
theorem prove_nonmembership_member_one_ok_counterexample :
    (1 : ℕ) ∈ ([1] : List ℕ) ∧
    (prove_nonmembership (Multiplicative.ofAdd (1 : ZMod 3)) (fun _ _ _ _ => 0)
      (Multiplicative.ofAdd (1 : ZMod 3)) [1] [1]).isOk = true :=
  ⟨by decide, rfl⟩

/-- The aggregate exponent of a list of (element, witness) pairs: the product
of the elements. -/
def elemProd (ps : List (ℕ × α)) : ℕ :=
  (ps.map Prod.fst).prod

/-- Removal of the first occurrence of a pair from a list, with the equality
test fixed to the one coming from decidable equality. -/
def erasePair (l : List (ℕ × α)) (p : ℕ × α) : List (ℕ × α) :=
  @List.erase _ instBEqOfDecidableEq l p

theorem erasePair_cons (q p : ℕ × α) (l : List (ℕ × α)) :
    erasePair (q :: l) p = if q = p then l else q :: erasePair l p := by
  simp only [erasePair, List.erase_cons]
  by_cases h : q = p
  · have hb : @BEq.beq _ (@instBEqOfDecidableEq (ℕ × α) _) q p = true := decide_eq_true h
    rw [if_pos hb, if_pos h]
  · have hb : @BEq.beq _ (@instBEqOfDecidableEq (ℕ × α) _) q p = false := decide_eq_false h
    rw [if_neg (by simp [hb]), if_neg h]

theorem erasePair_cons_head (p : ℕ × α) (l : List (ℕ × α)) :
    erasePair (p :: l) p = l := by
  rw [erasePair_cons, if_pos rfl]

theorem erasePair_cons_tail {p q : ℕ × α} (l : List (ℕ × α)) (h : p ≠ q) :
    erasePair (q :: l) p = q :: erasePair l p := by
  rw [erasePair_cons, if_neg fun e => h e.symm]

theorem erasePair_append_left {p : ℕ × α} {l1 : List (ℕ × α)} (l2 : List (ℕ × α))
    (h : p ∈ l1) : erasePair (l1 ++ l2) p = erasePair l1 p ++ l2 := by
  induction l1 with
  | nil => simp at h
  | cons q l1 ih =>
    by_cases hq : q = p
    · rw [List.cons_append, erasePair_cons, if_pos hq, erasePair_cons, if_pos hq]
    · have hmem : p ∈ l1 := by
        rcases List.mem_cons.mp h with he | hm
        · exact absurd he.symm hq
        · exact hm
      rw [List.cons_append, erasePair_cons, if_neg hq, erasePair_cons, if_neg hq,
        List.cons_append, ih hmem]

theorem erasePair_append_right {p : ℕ × α} {l1 : List (ℕ × α)} (l2 : List (ℕ × α))
    (h : p ∉ l1) : erasePair (l1 ++ l2) p = l1 ++ erasePair l2 p := by
  induction l1 with
  | nil => rfl
  | cons q l1 ih =>
    have hq : ¬q = p := fun e => h (List.mem_cons.mpr (Or.inl e.symm))
    have htl : p ∉ l1 := fun m => h (List.mem_cons_of_mem q m)
    rw [List.cons_append, erasePair_cons, if_neg hq, ih htl, List.cons_append]

theorem perm_cons_erasePair {p : ℕ × α} {l : List (ℕ × α)} (h : p ∈ l) :
    List.Perm l (p :: erasePair l p) :=
  List.perm_cons_erase h

theorem erasePair_perm (p : ℕ × α) {l1 l2 : List (ℕ × α)} (h : List.Perm l1 l2) :
    List.Perm (erasePair l1 p) (erasePair l2 p) :=
  h.erase p

/-- The invariant of the delete loop: the running accumulator, raised to the
product of all processed elements but one, recovers the witness of that
remaining element. -/
def Recovers (r : α) (ps : List (ℕ × α)) : Prop :=
  ∀ p ∈ ps, r ^ elemProd (erasePair ps p) = p.2

theorem elemProd_nil : elemProd ([] : List (ℕ × α)) = 1 := rfl

theorem elemProd_cons (p : ℕ × α) (ps : List (ℕ × α)) :
    elemProd (p :: ps) = p.1 * elemProd ps := by
  simp [elemProd]

theorem elemProd_append (ps qs : List (ℕ × α)) :
    elemProd (ps ++ qs) = elemProd ps * elemProd qs := by
  simp [elemProd]

theorem elemProd_erase {p : ℕ × α} {ps : List (ℕ × α)} (hp : p ∈ ps) :
    p.1 * elemProd (erasePair ps p) = elemProd ps := by
  have hperm : List.Perm ps (p :: erasePair ps p) := perm_cons_erasePair hp
  have := List.Perm.prod_eq (hperm.map Prod.fst)
  simp only [elemProd] at *
  rw [this]
  simp

theorem shamir_trick_some_inv {xr yr : α} {x y : ℕ} {v : α}
    (h : shamir_trick xr yr x y = some v) :
    xr ^ x = yr ^ y ∧ Nat.gcd x y = 1 ∧
      v = xr ^ Nat.gcdB x y * yr ^ Nat.gcdA x y := by
  by_cases hroot : xr ^ x = yr ^ y
  · by_cases hg : Nat.gcd x y = 1
    · simp [shamir_trick, bezout, hroot, hg] at h
      exact ⟨hroot, hg, h.symm⟩
    · simp [shamir_trick, bezout, hroot, hg] at h
  · simp [shamir_trick, hroot] at h

theorem bezout_key {x y : ℕ} (hg : Nat.gcd x y = 1) :
    (x : ℤ) * Nat.gcdA x y + (y : ℤ) * Nat.gcdB x y = 1 := by
  have h := (Nat.gcd_eq_gcd_ab x y).symm
  rw [hg] at h
  exact_mod_cast h

theorem step_old (r w p2 : α) (A e c : ℕ) (a b : ℤ)
    (key : (A : ℤ) * a + (e : ℤ) * b = 1)
    (hroot : r ^ (A : ℤ) = w ^ (e : ℤ)) (hc : r ^ (c : ℤ) = p2) :
    (r ^ b * w ^ a) ^ ((c : ℤ) * e) = p2 := by
  rw [mul_zpow, ← zpow_mul r, ← zpow_mul w,
    show b * ((c : ℤ) * e) = (c : ℤ) - (A : ℤ) * (a * c) by linear_combination (c : ℤ) * key,
    show a * ((c : ℤ) * e) = (e : ℤ) * (a * c) by ring,
    zpow_sub, zpow_mul r, hroot, ← zpow_mul w, hc]
  group

theorem step_new (r w : α) (A e : ℕ) (a b : ℤ)
    (key : (A : ℤ) * a + (e : ℤ) * b = 1)
    (hroot : r ^ (A : ℤ) = w ^ (e : ℤ)) :
    (r ^ b * w ^ a) ^ (A : ℤ) = w := by
  rw [mul_zpow, ← zpow_mul r, ← zpow_mul w,
    show b * (A : ℤ) = (A : ℤ) * b by ring,
    show a * (A : ℤ) = 1 - (e : ℤ) * b by linear_combination key,
    zpow_sub, zpow_one, zpow_mul r, hroot, ← zpow_mul w]
  group

theorem recovers_step {r w : α} {ps : List (ℕ × α)} {e : ℕ} {v : α}
    (hI : Recovers r ps)
    (hsh : shamir_trick r w (elemProd ps) e = some v) :
    Recovers v (ps ++ [(e, w)]) := by
  obtain ⟨hroot, hgcd, hv⟩ := shamir_trick_some_inv hsh
  have key := bezout_key hgcd
  have hrootz : r ^ ((elemProd ps : ℕ) : ℤ) = w ^ ((e : ℕ) : ℤ) := by
    rw [zpow_natCast, zpow_natCast, hroot]
  intro p hp
  rcases Classical.em (p ∈ ps) with hmem | hmem
  · rw [erasePair_append_left _ hmem, elemProd_append]
    have hc : r ^ ((elemProd (erasePair ps p) : ℕ) : ℤ) = p.2 := by
      rw [zpow_natCast]
      exact hI p hmem
    have := step_old r w p.2 (elemProd ps) e (elemProd (erasePair ps p))
      (Nat.gcdA (elemProd ps) e) (Nat.gcdB (elemProd ps) e) key hrootz hc
    rw [hv]
    have hexp : elemProd (erasePair ps p) * elemProd [(e, w)]
        = elemProd (erasePair ps p) * e := by
      simp [elemProd]
    rw [hexp, ← zpow_natCast (r ^ Nat.gcdB (elemProd ps) e * w ^ Nat.gcdA (elemProd ps) e)
      (elemProd (erasePair ps p) * e)]
    rw [show ((elemProd (erasePair ps p) * e : ℕ) : ℤ)
      = ((elemProd (erasePair ps p) : ℕ) : ℤ) * e by push_cast; ring]
    exact this
  · have hpe : p = (e, w) := by
      rcases List.mem_append.mp hp with h | h
      · exact absurd h hmem
      · simpa using h
    rw [erasePair_append_right _ hmem, hpe, erasePair_cons_head, List.append_nil]
    have := step_new r w (elemProd ps) e
      (Nat.gcdA (elemProd ps) e) (Nat.gcdB (elemProd ps) e) key hrootz
    rw [hv, ← zpow_natCast (r ^ Nat.gcdB (elemProd ps) e * w ^ Nat.gcdA (elemProd ps) e)
      (elemProd ps)]
    exact this

theorem pairwise_coprime_extend {ps : List (ℕ × α)} {e : ℕ} (w : α)
    (hcp : List.Pairwise Nat.Coprime (ps.map Prod.fst))
    (hg : Nat.gcd (elemProd ps) e = 1) :
    List.Pairwise Nat.Coprime ((ps ++ [(e, w)]).map Prod.fst) := by
  rw [List.map_append, List.pairwise_append]
  refine ⟨hcp, by simp, ?_⟩
  intro x hx y hy
  simp only [List.map_cons, List.map_nil, List.mem_singleton] at hy
  subst hy
  exact Nat.Coprime.coprime_dvd_left (List.dvd_prod hx) hg

theorem deleteLoop_recovers (acc : α) (rest : List (ℕ × α)) :
    ∀ (ps : List (ℕ × α)) (r : α) (A2 : ℕ) (r2 : α),
      deleteLoop acc rest (elemProd ps) r = Except.ok (A2, r2) →
      Recovers r ps →
      List.Pairwise Nat.Coprime (ps.map Prod.fst) →
      Recovers r2 (ps ++ rest) ∧ A2 = elemProd (ps ++ rest) ∧
        List.Pairwise Nat.Coprime ((ps ++ rest).map Prod.fst) := by
  induction rest with
  | nil =>
    intro ps r A2 r2 hloop hI hcp
    simp only [deleteLoop, Except.ok.injEq, Prod.mk.injEq] at hloop
    obtain ⟨h1, h2⟩ := hloop
    subst h1
    subst h2
    rw [List.append_nil]
    exact ⟨hI, rfl, hcp⟩
  | cons hd tl ih =>
    intro ps r A2 r2 hloop hI hcp
    obtain ⟨e, w⟩ := hd
    by_cases hw : w ^ e = acc
    · simp only [deleteLoop, hw, ne_eq, not_true_eq_false, if_false] at hloop
      cases hsh : shamir_trick r w (elemProd ps) e with
      | none => rw [hsh] at hloop; cases hloop
      | some v =>
        rw [hsh] at hloop
        have hgcd := (shamir_trick_some_inv hsh).2.1
        have hexp : elemProd ps * e = elemProd (ps ++ [(e, w)]) := by
          simp [elemProd_append, elemProd]
        rw [hexp] at hloop
        have hI2 := recovers_step hI hsh
        have hcp2 := pairwise_coprime_extend w hcp hgcd
        have hres := ih (ps ++ [(e, w)]) v A2 r2 hloop hI2 hcp2
        rwa [List.append_assoc, List.singleton_append] at hres
    · simp only [deleteLoop, hw, ne_eq, not_false_eq_true, if_true] at hloop
      cases hloop

theorem delete_ok_recovers (acc : α) (l : List (ℕ × α)) (r : α) (pf : PoE α)
    (h : delete acc l = Except.ok (r, pf)) (hne : l ≠ []) :
    Recovers r l ∧ List.Pairwise Nat.Coprime (l.map Prod.fst) := by
  match l with
  | [] => exact absurd rfl hne
  | (e0, w0) :: rest =>
    simp only [delete] at h
    cases hl : deleteLoop acc rest e0 w0 with
    | error err => rw [hl] at h; cases h
    | ok pr =>
      obtain ⟨A2, r2⟩ := pr
      rw [hl] at h
      simp only [Except.ok.injEq, Prod.mk.injEq] at h
      obtain ⟨hr, _⟩ := h
      subst hr
      have h0 : elemProd [(e0, w0)] = e0 := by simp [elemProd]
      rw [← h0] at hl
      have hI0 : Recovers w0 [(e0, w0)] := by
        intro p hp
        simp only [List.mem_singleton] at hp
        subst hp
        rw [erasePair_cons_head]
        simp [elemProd]
      have hcp0 : List.Pairwise Nat.Coprime ([(e0, w0)].map Prod.fst) := by simp
      have hres := deleteLoop_recovers acc rest [(e0, w0)] w0 A2 r2 hl hI0 hcp0
      rw [List.singleton_append] at hres
      exact ⟨hres.1, hres.2.2⟩

theorem coprime_list_prod (k : ℕ) (es : List ℕ) (h : ∀ e ∈ es, Nat.Coprime k e) :
    Nat.Coprime k es.prod := by
  induction es with
  | nil => simp [Nat.coprime_one_right]
  | cons e es ih =>
    rw [List.prod_cons]
    exact Nat.Coprime.mul_right (h e (by simp)) (ih fun x hx => h x (List.mem_cons_of_mem e hx))

theorem pow_eq_one_of_coprime (s : α) (m n : ℕ) (hm : s ^ m = 1) (hn : s ^ n = 1)
    (h : Nat.gcd m n = 1) : s = 1 := by
  have key := bezout_key h
  have hz : s ^ (1 : ℤ) = 1 := by
    rw [← key, zpow_add, zpow_mul, zpow_mul, zpow_natCast, zpow_natCast, hm, hn,
      one_zpow, one_zpow, one_mul]
  simpa using hz

theorem pow_erase_eq_one (l : List (ℕ × α)) :
    ∀ s : α, l ≠ [] → List.Pairwise Nat.Coprime (l.map Prod.fst) →
      (∀ p ∈ l, s ^ elemProd (erasePair l p) = 1) → s = 1 := by
  induction l with
  | nil => intro s hne _ _; exact absurd rfl hne
  | cons p l2 ih =>
    intro s _ hcp hall
    rw [List.map_cons] at hcp
    rcases List.pairwise_cons.mp hcp with ⟨hco, hcp2⟩
    by_cases hl2 : l2 = []
    · subst hl2
      have := hall p (by simp)
      rwa [erasePair_cons_head, elemProd_nil, pow_one] at this
    · have hall2 : ∀ q ∈ l2, (s ^ p.1) ^ elemProd (erasePair l2 q) = 1 := by
        intro q hq
        by_cases hqp : q = p
        · subst hqp
          have hhd := hall q (by simp)
          rw [erasePair_cons_head] at hhd
          rw [← pow_mul, elemProd_erase hq]
          exact hhd
        · have := hall q (List.mem_cons_of_mem p hq)
          rw [erasePair_cons_tail l2 hqp, elemProd_cons, pow_mul] at this
          exact this
      have ht : s ^ p.1 = 1 := ih (s ^ p.1) hl2 hcp2 hall2
      have hhead : s ^ elemProd l2 = 1 := by
        have := hall p (by simp)
        rwa [erasePair_cons_head] at this
      have hcop : Nat.Coprime p.1 (elemProd l2) :=
        coprime_list_prod p.1 (l2.map Prod.fst) fun e he => hco e he
      exact pow_eq_one_of_coprime s p.1 (elemProd l2) ht hhead hcop

theorem recovers_unique (l : List (ℕ × α)) (r1 r2 : α) (hne : l ≠ [])
    (hcp : List.Pairwise Nat.Coprime (l.map Prod.fst))
    (h1 : Recovers r1 l) (h2 : Recovers r2 l) : r1 = r2 := by
  have hs : ∀ p ∈ l, (r1 / r2) ^ elemProd (erasePair l p) = 1 := by
    intro p hp
    rw [div_pow, h1 p hp, h2 p hp, div_self']
  have := pow_erase_eq_one l (r1 / r2) hne hcp hs
  exact div_eq_one.mp this

/-- C7: delete is order-independent in its successful result: on two witness
lists that are permutations of each other, two successful runs of delete from
the same accumulator return the same new accumulator value. -/
theorem delete_perm_ok_eq (acc : α) (l1 l2 : List (ℕ × α)) (res1 res2 : α × PoE α)
    (hperm : List.Perm l1 l2)
    (h1 : delete acc l1 = Except.ok res1) (h2 : delete acc l2 = Except.ok res2) :
    res1.1 = res2.1 := by
  by_cases hne : l1 = []
  · subst hne
    have hl2 : l2 = [] := hperm.symm.eq_nil
    subst hl2
    simp only [delete, Except.ok.injEq] at h1 h2
    rw [← h1, ← h2]
  · have hne2 : l2 ≠ [] := fun h => hne (List.Perm.eq_nil (h ▸ hperm))
    obtain ⟨r1, pf1⟩ := res1
    obtain ⟨r2, pf2⟩ := res2
    obtain ⟨hI1, hcp1⟩ := delete_ok_recovers acc l1 r1 pf1 h1 hne
    obtain ⟨hI2, _⟩ := delete_ok_recovers acc l2 r2 pf2 h2 hne2
    have hI2m : Recovers r2 l1 := by
      intro p hp
      have hp2 : p ∈ l2 := hperm.mem_iff.mp hp
      have hemp : elemProd (erasePair l1 p) = elemProd (erasePair l2 p) :=
        List.Perm.prod_eq ((erasePair_perm p hperm).map Prod.fst)
      rw [hemp]
      exact hI2 p hp2
    exact recovers_unique l1 r1 r2 hne hcp1 hI1 hI2m

/-- C7 witness: a concrete pair of permuted witness lists, both accepted by
delete, yielding the same accumulator value. -/
theorem delete_perm_ok_eq_witness :
    List.Perm [((2 : ℕ), Multiplicative.ofAdd (1 : ZMod 4))]
      [((2 : ℕ), Multiplicative.ofAdd (1 : ZMod 4))] ∧
    delete (Multiplicative.ofAdd (1 : ZMod 4))
        [((2 : ℕ), Multiplicative.ofAdd (1 : ZMod 4))]
      = Except.ok (Multiplicative.ofAdd (1 : ZMod 4),
          prove_poe (Multiplicative.ofAdd (1 : ZMod 4)) 2
            (Multiplicative.ofAdd (1 : ZMod 4))) ∧
    (Multiplicative.ofAdd (1 : ZMod 4),
      prove_poe (Multiplicative.ofAdd (1 : ZMod 4)) 2
        (Multiplicative.ofAdd (1 : ZMod 4))).1
      = (Multiplicative.ofAdd (1 : ZMod 4),
          prove_poe (Multiplicative.ofAdd (1 : ZMod 4)) 2
            (Multiplicative.ofAdd (1 : ZMod 4))).1 :=
  ⟨List.Perm.refl _, rfl,
    delete_perm_ok_eq (Multiplicative.ofAdd (1 : ZMod 4))
      [((2 : ℕ), Multiplicative.ofAdd (1 : ZMod 4))]
      [((2 : ℕ), Multiplicative.ofAdd (1 : ZMod 4))]
      (Multiplicative.ofAdd (1 : ZMod 4),
        prove_poe (Multiplicative.ofAdd (1 : ZMod 4)) 2 (Multiplicative.ofAdd (1 : ZMod 4)))
      (Multiplicative.ofAdd (1 : ZMod 4),
        prove_poe (Multiplicative.ofAdd (1 : ZMod 4)) 2 (Multiplicative.ofAdd (1 : ZMod 4)))
      (List.Perm.refl _) rfl rfl⟩

end Accumulator
